import Mathlib

/-!
Verification of the `deco` decorators (concurrency limiter `limit.js` and
request coalescer `coalesce.js`) against their natural-language specification.

The JavaScript sources are shallowly embedded:

* JS strings are modelled as `List Char` (a JS string is a finite sequence of
  characters); string literals are written via `String.data`.
* Finite JS numbers are modelled as `ℚ`, with a distinct `nan` value for
  `NaN` (`typeof` `"number"`, every `<` comparison false, fails
  `Number.isSafeInteger`).  The only arithmetic the sources perform on
  numbers is `Number.isSafeInteger`, the `<` comparison and decimal
  stringification of validated safe integers, all exact on this domain;
  floating-point rounding never enters the validated paths the claims are
  about.
* The asynchronous behaviour of the two decorators is embedded as a labelled
  transition system, one deterministic step per region of JS code between
  suspension points, following the cooperative single-threaded scheduling
  model of the spec (§5): state mutation between suspension points is atomic.

`coalesce.js` is embedded in its final form (the one with `sanitiseArgs`,
`wrap` and the argument-count suffix); `limit.js` as is.
-/

namespace Deco

/-- `typeof` tags of JS values that are not `string`, `number` or `boolean`.
(`null` has `typeof` `"object"`.) -/
inductive JSType where
  | object
  | function
  | symbol
  | undefinedT
  | bigint
deriving DecidableEq, Repr

/-- The string `typeof` returns for a non-primitive-key value. -/
def JSType.name : JSType → String
  | .object => "object"
  | .function => "function"
  | .symbol => "symbol"
  | .undefinedT => "undefined"
  | .bigint => "bigint"

/-- A JS runtime value, as far as the decorators inspect it: the three key-able
primitive kinds carry their value, every other value only its `typeof` tag.
Finite JS numbers are rationals; `NaN` — a number (`typeof` `"number"`) with
no rational value, on which every `<` comparison is false — is its own
constructor so that the number domain is not narrower than the program's. -/
inductive JSVal where
  | str (s : String)
  | num (q : ℚ)
  | nan
  | boolean (b : Bool)
  | other (t : JSType)
deriving DecidableEq, Repr

/-- JS `typeof`. -/
def typeofVal : JSVal → String
  | .str _ => "string"
  | .num _ => "number"
  | .nan => "number"
  | .boolean _ => "boolean"
  | .other t => t.name

/-- `Number.MAX_SAFE_INTEGER = 2^53 - 1`. -/
def MAX_SAFE_INTEGER : ℤ := 2 ^ 53 - 1

/-- `Number.isSafeInteger`: the value is an exact integer of magnitude at most
`2^53 - 1`. -/
def isSafeInteger (q : ℚ) : Bool :=
  q.den == 1 && (q.num.natAbs : ℤ) ≤ MAX_SAFE_INTEGER

/-- Decimal digit characters, fueled helper (fuel `n + 1` always suffices). -/
def natDecCharsAux : Nat → Nat → List Char
  | 0, _ => []
  | fuel + 1, n =>
    if n < 10 then [Nat.digitChar n]
    else natDecCharsAux fuel (n / 10) ++ [Nat.digitChar (n % 10)]

/-- Decimal representation of a natural number, most significant digit first:
the characters JS produces for `` `${n}` `` on a natural number. -/
def natDecChars (n : Nat) : List Char :=
  natDecCharsAux (n + 1) n

/-- The characters JS produces for `` `${i}` `` on an exact integer. -/
def intDecChars (i : Int) : List Char :=
  if i < 0 then '-' :: natDecChars i.natAbs else natDecChars i.natAbs

/-- Characters of JS number-to-string conversion, printed via the integer
numerator.  Key generation only applies this after `validateArgs`, whose
`Number.isSafeInteger` check restricts to exact integers (`q.den = 1`), where
JS prints exactly the decimal integer; non-integer formatting is unreachable
in the embedded code paths. -/
def jsNumChars (q : ℚ) : List Char :=
  intDecChars q.num

/-- `CoalesceKeyError`, from `coalesce.js`: carries its message; the `name`
property is the constant `"CoalesceKeyError"`. -/
structure CoalesceKeyError where
  message : String
deriving DecidableEq, Repr

instance {ε α : Type} [DecidableEq ε] [DecidableEq α] : DecidableEq (Except ε α) := fun a b =>
  match a, b with
  | .ok x, .ok y => if h : x = y then .isTrue (by rw [h]) else .isFalse (by simp [h])
  | .error x, .error y => if h : x = y then .isTrue (by rw [h]) else .isFalse (by simp [h])
  | .ok _, .error _ => .isFalse (by simp)
  | .error _, .ok _ => .isFalse (by simp)

/-- The `name` of every `CoalesceKeyError` instance. -/
def CoalesceKeyError.name (_ : CoalesceKeyError) : String := "CoalesceKeyError"

namespace Coalesce

/-- `prependType` from `coalesce.js`: tag a primitive value with a
type-distinguishing first character.  The `other` case corresponds to the JS
`switch` falling through (unreachable: `createKey` validates first). -/
def prependType : JSVal → List Char
  | .str s => 's' :: s.data
  | .num q => 'n' :: jsNumChars q
  | .nan => 'n' :: "NaN".data
  | .boolean b => 'b' :: (if b then "true".data else "false".data)
  | .other _ => "undefined".data

/-- `wrap` from `coalesce.js`: `` `{${arg}}` ``. -/
def wrap (arg : List Char) : List Char :=
  '{' :: arg ++ ['}']

/-- `sanitiseArgs` from `coalesce.js`. -/
def sanitiseArgs (args : List JSVal) : List (List Char) :=
  args.map fun k => wrap (prependType k)

/-- `Array.prototype.join('|')`. -/
def joinPipe : List (List Char) → List Char
  | [] => []
  | [a] => a
  | a :: rest => a ++ '|' :: joinPipe rest

/-- The per-argument check inside `validateArgs` of `coalesce.js`.  `NaN` has
`typeof` `"number"` and fails `Number.isSafeInteger`, hence its arm raises the
safe-integer error. -/
def validateArg (arg : JSVal) : Except CoalesceKeyError Unit :=
  if typeofVal arg ≠ "string" ∧ typeofVal arg ≠ "number" ∧ typeofVal arg ≠ "boolean" then
    .error ⟨"Invalid parameter type: " ++ typeofVal arg ++
      ".\nCreate a generateKey callback to use complex data types."⟩
  else match arg with
    | .num q =>
      if !isSafeInteger q then
        .error ⟨"Unable to generate key: Provided integer exceeds maximum safe integer size"⟩
      else .ok ()
    | .nan =>
      .error ⟨"Unable to generate key: Provided integer exceeds maximum safe integer size"⟩
    | _ => .ok ()

/-- `validateArgs` from `coalesce.js`: `args.forEach`, throwing at the first
invalid argument. -/
def validateArgs (args : List JSVal) : Except CoalesceKeyError Unit :=
  args.forM validateArg

/-- `createKey` from `coalesce.js`: user `generateKey` if provided, otherwise
the automatic encoding `{tagged}|{tagged}|…|count`, or `"DEFAULT"` for zero
arguments.  A thrown `CoalesceKeyError` is the `Except.error` case. -/
def createKey (args : List JSVal) (generateKey : Option (List JSVal → List Char)) :
    Except CoalesceKeyError (List Char) :=
  match generateKey with
  | some g => .ok (g args)
  | none =>
    if args.length > 0 then
      match validateArgs args with
      | .error e => .error e
      | .ok () =>
        let safeArgs := sanitiseArgs args
        let key := joinPipe safeArgs
        .ok (key ++ '|' :: natDecChars safeArgs.length)
    else
      .ok "DEFAULT".data

/-- Proof device: the number denoted by a list of decimal digit characters,
most significant first. -/
def decVal (l : List Char) : Nat :=
  l.foldl (fun a c => 10 * a + (c.toNat - '0'.toNat)) 0

/-- A key-able value whose string content does not contain the closing
delimiter `'}'` of the automatic key encoding (numbers and booleans never
print one). -/
def braceFree : JSVal → Bool
  | .str s => !s.data.contains '}'
  | _ => true

/-- Outcome of a settled invocation of the wrapped function: the value it
produced, or the error it failed with (both abstract tokens). -/
inductive COutcome where
  | success (v : Nat)
  | failure (e : Nat)
deriving DecidableEq, Repr

/-- State of one coalescer instance (`coalesce.js`), with ghost trace fields.

* `inFlight` — the keys of `inFlightRequests` (`Map` membership);
* `waiters` — ghost: callers currently sharing the in-flight promise of a key;
* `fnCalls` — ghost: every invocation of the wrapped `fn`, in order, with its
  argument tuple;
* `delivered` — ghost: callers whose returned promise has settled, with the
  outcome they observed;
* `keyFailures` — ghost: callers whose call rejected during key generation. -/
structure CConfig where
  inFlight : List (List Char)
  waiters : List (Nat × List Char)
  fnCalls : List (List JSVal)
  delivered : List (Nat × COutcome)
  keyFailures : List (Nat × CoalesceKeyError)
deriving DecidableEq, Repr

/-- Events of the coalescer transition system: a caller invokes the coalesced
function, or the single in-flight invocation behind a key settles. -/
inductive CEvent where
  | call (cid : Nat) (args : List JSVal)
  | settle (k : List Char) (o : COutcome)
deriving DecidableEq, Repr

/-- One step of the coalescer, per the body of the wrapped closure in
`coalesce.js` (each region between suspension points is atomic, spec §5):

* `call`: `createKey` may throw (the call rejects, `fn` is not invoked, the
  map is untouched); if the key is in flight the caller just shares the stored
  promise; otherwise `fn` is invoked and the new promise stored under the key.
* `settle`: the `.finally` handler deletes the key, and every caller sharing
  the stored promise observes the same outcome (value or error). -/
def cstep (generateKey : Option (List JSVal → List Char)) (s : CConfig) : CEvent → CConfig
  | .call cid args =>
    match Coalesce.createKey args generateKey with
    | .error e => { s with keyFailures := s.keyFailures ++ [(cid, e)] }
    | .ok k =>
      if k ∈ s.inFlight then
        { s with waiters := s.waiters ++ [(cid, k)] }
      else
        { s with inFlight := s.inFlight ++ [k],
                 waiters := s.waiters ++ [(cid, k)],
                 fnCalls := s.fnCalls ++ [args] }
  | .settle k o =>
    if k ∈ s.inFlight then
      { s with inFlight := s.inFlight.erase k,
               waiters := s.waiters.filter (fun w => w.2 ≠ k),
               delivered := s.delivered ++
                 (s.waiters.filter (fun w => w.2 = k)).map (fun w => (w.1, o)) }
    else s

/-- Initial coalescer state: empty map, no history. -/
def cinit : CConfig := ⟨[], [], [], [], []⟩

/-- Run the coalescer from its initial state over an event sequence. -/
def crun (generateKey : Option (List JSVal → List Char)) (es : List CEvent) : CConfig :=
  es.foldl (cstep generateKey) cinit

end Coalesce

/-- The `TypeError` thrown by `validateArgs` in `limit.js`. -/
structure JSTypeError where
  message : String
deriving DecidableEq, Repr

namespace Limit

/-- JS `<` between a value known (behind a `typeof` guard) to be a number and
a numeric literal.  `NaN < c` is false for every `c`, which the wildcard also
returns; on a non-number the guard makes this branch unreachable. -/
def jsLt (v : JSVal) (c : ℚ) : Bool :=
  match v with
  | .num q => q < c
  | _ => false

/-- `validateArgs` from `limit.js`: the synchronous construction-time checks of
`limit(fn, limit)`, in source order. -/
def validateArgs (fn lim : JSVal) : Except JSTypeError Unit :=
  if typeofVal fn ≠ "function" then .error ⟨"parameter must be a function"⟩
  else if typeofVal lim ≠ "number" then .error ⟨"limit must be a number"⟩
  else if jsLt lim 1 then .error ⟨"limit must be >= 1"⟩
  else .ok ()

/-- State of one limiter instance (`limit.js`), with ghost trace fields.

* `queue` — the `queue` array: pending call ids, head = next to be shifted;
* `processing` — the `processing` counter;
* `running` — ghost: the in-flight invocations `(cid, admittedFromQueue)`;
* `started` — ghost: call ids in the order their `fn` invocation started;
* `enqueued` — ghost: call ids ever pushed onto `queue`, in push order;
* `admitted` — ghost: call ids shifted off `queue`, in shift order;
* `delivered` — ghost: callers whose returned promise settled, with `true` for
  the wrapped function's value and `false` for its error. -/
structure LConfig where
  queue : List Nat
  processing : Nat
  running : List (Nat × Bool)
  started : List Nat
  enqueued : List Nat
  admitted : List Nat
  delivered : List (Nat × Bool)
deriving DecidableEq, Repr

/-- Events of the limiter transition system: a caller invokes the limited
function; an in-flight invocation settles successfully; or it fails.
The capacity is a positive integer (spec §3), so the JS `processing < limit`
comparison is `Nat` comparison. -/
inductive LEvent where
  | arrive (c : Nat)
  | settleOk (c : Nat)
  | settleFail (c : Nat)
deriving DecidableEq, Repr

/-- One step of the limiter, per `limit.js` (each region between suspension
points is atomic, spec §5):

* `arrive`: the wrapped closure — admit and start `fn` if
  `processing < limit`, else push `{args, resolve}` onto `queue`.
* `settleOk`: the settlement path of `run` — the `.finally` decrements
  `processing`, the caller receives the result (directly, or via `resolve` for
  a queued call), and `if (queue.length > 0) next()` shifts the head of the
  queue and starts it.
* `settleFail`: the failing settlement path — the `.finally` still decrements
  `processing`, but the `await` re-raises before the queue check, so no
  dequeue happens; a directly-admitted caller receives the rejection, while a
  queued caller receives nothing (`run(args).then(resolve)` installs no
  rejection handler). -/
def lstep (lim : Nat) (s : LConfig) : LEvent → LConfig
  | .arrive c =>
    if s.processing < lim then
      { s with processing := s.processing + 1,
               running := s.running ++ [(c, false)],
               started := s.started ++ [c] }
    else
      { s with queue := s.queue ++ [c], enqueued := s.enqueued ++ [c] }
  | .settleOk c =>
    match s.running.find? (fun r => r.1 == c) with
    | none => s
    | some _ =>
      match s.queue with
      | [] =>
        { s with processing := s.processing - 1,
                 running := s.running.eraseP (fun r => r.1 == c),
                 delivered := s.delivered ++ [(c, true)] }
      | d :: rest =>
        { s with queue := rest,
                 processing := s.processing - 1 + 1,
                 running := s.running.eraseP (fun r => r.1 == c) ++ [(d, true)],
                 started := s.started ++ [d],
                 admitted := s.admitted ++ [d],
                 delivered := s.delivered ++ [(c, true)] }
  | .settleFail c =>
    match s.running.find? (fun r => r.1 == c) with
    | none => s
    | some r =>
      { s with processing := s.processing - 1,
               running := s.running.eraseP (fun x => x.1 == c),
               delivered := if r.2 then s.delivered else s.delivered ++ [(c, false)] }

/-- Initial limiter state: empty queue, counter zero, no history. -/
def linit : LConfig := ⟨[], 0, [], [], [], [], []⟩

/-- Run the limiter from its initial state over an event sequence. -/
def lrun (lim : Nat) (es : List LEvent) : LConfig :=
  es.foldl (lstep lim) linit

end Limit

/-! ## Helper lemmas -/

/-- A property preserved by every step holds after folding any event list. -/
theorem foldl_invariant {σ ε : Type} (P : σ → Prop) (f : σ → ε → σ)
    (hstep : ∀ s e, P s → P (f s e)) :
    ∀ (es : List ε) (s : σ), P s → P (es.foldl f s) := by
  intro es
  induction es with
  | nil => intro s hs; exact hs
  | cons e rest ih =>
    intro s hs
    rw [List.foldl_cons]
    exact ih (f s e) (hstep s e hs)

theorem except_error_bind {ε α β : Type} (e : ε) (f : α → Except ε β) :
    (Except.error e >>= f) = Except.error e := rfl

theorem except_ok_bind {ε α β : Type} (a : α) (f : α → Except ε β) :
    (Except.ok a >>= f) = f a := rfl

theorem natDecCharsAux_irrel : ∀ (f₁ f₂ n : Nat), n < f₁ → n < f₂ →
    natDecCharsAux f₁ n = natDecCharsAux f₂ n := by
  intro f₁
  induction f₁ with
  | zero => intro f₂ n h; omega
  | succ f ih =>
    intro f₂ n h1 h2
    match f₂, h2 with
    | g + 1, h2 =>
      simp only [natDecCharsAux]
      by_cases h10 : n < 10
      · simp [h10]
      · have hdiv : n / 10 < n := Nat.div_lt_self (by omega) (by omega)
        simp only [h10, if_false]
        rw [ih g (n / 10) (by omega) (by omega)]

/-- Unfolding equation for `natDecChars`, with the fuel eliminated. -/
theorem natDecChars_eq (n : Nat) : natDecChars n =
    if n < 10 then [Nat.digitChar n]
    else natDecChars (n / 10) ++ [Nat.digitChar (n % 10)] := by
  show natDecCharsAux (n + 1) n = _
  simp only [natDecCharsAux]
  by_cases h10 : n < 10
  · simp [h10]
  · have hdiv : n / 10 < n := Nat.div_lt_self (by omega) (by omega)
    simp only [h10, if_false]
    rw [natDecCharsAux_irrel n (n / 10 + 1) (n / 10) (by omega) (by omega)]
    rfl

theorem digitChar_isDigit {d : Nat} (h : d < 10) : (Nat.digitChar d).isDigit = true := by
  interval_cases d <;> decide

theorem digitChar_val {d : Nat} (h : d < 10) : (Nat.digitChar d).toNat - '0'.toNat = d := by
  interval_cases d <;> decide

theorem natDecChars_digits (n : Nat) : ∀ c ∈ natDecChars n, c.isDigit = true := by
  induction n using Nat.strong_induction_on with
  | _ n ih =>
    rw [natDecChars_eq]
    by_cases h10 : n < 10
    · simp only [h10, if_true, List.mem_singleton]
      rintro c rfl
      exact digitChar_isDigit h10
    · simp only [h10, if_false, List.mem_append, List.mem_singleton]
      rintro c (hc | rfl)
      · exact ih (n / 10) (Nat.div_lt_self (by omega) (by omega)) c hc
      · exact digitChar_isDigit (Nat.mod_lt _ (by omega))

theorem natDecChars_ne_nil (n : Nat) : natDecChars n ≠ [] := by
  rw [natDecChars_eq]
  by_cases h10 : n < 10 <;> simp [h10]

theorem decVal_append (l : List Char) (c : Char) :
    Coalesce.decVal (l ++ [c]) = 10 * Coalesce.decVal l + (c.toNat - '0'.toNat) := by
  simp [Coalesce.decVal, List.foldl_append]

theorem decVal_natDecChars (n : Nat) : Coalesce.decVal (natDecChars n) = n := by
  induction n using Nat.strong_induction_on with
  | _ n ih =>
    rw [natDecChars_eq]
    by_cases h10 : n < 10
    · simp only [h10, if_true]
      have := digitChar_val h10
      simp only [Coalesce.decVal, List.foldl_cons, List.foldl_nil] at this ⊢
      omega
    · simp only [h10, if_false]
      rw [decVal_append, ih (n / 10) (Nat.div_lt_self (by omega) (by omega)),
        digitChar_val (Nat.mod_lt _ (by omega))]
      omega

theorem natDecChars_injective {m n : Nat} (h : natDecChars m = natDecChars n) : m = n := by
  rw [← decVal_natDecChars m, h, decVal_natDecChars]

theorem intDecChars_chars (i : Int) : ∀ c ∈ intDecChars i, c = '-' ∨ c.isDigit = true := by
  unfold intDecChars
  by_cases hneg : i < 0
  · simp only [hneg, if_true, List.mem_cons]
    rintro c (rfl | hc)
    · exact Or.inl rfl
    · exact Or.inr (natDecChars_digits _ c hc)
  · simp only [hneg, if_false]
    intro c hc
    exact Or.inr (natDecChars_digits _ c hc)

theorem intDecChars_injective {i j : Int} (h : intDecChars i = intDecChars j) : i = j := by
  unfold intDecChars at h
  by_cases hi : i < 0 <;> by_cases hj : j < 0 <;> simp only [hi, hj, if_true, if_false] at h
  · have h' : natDecChars i.natAbs = natDecChars j.natAbs := by injection h
    have := natDecChars_injective h'
    omega
  · have : '-' ∈ natDecChars j.natAbs := h ▸ List.mem_cons_self _ _
    have := natDecChars_digits j.natAbs '-' this
    simp at this
  · have : '-' ∈ natDecChars i.natAbs := h.symm ▸ List.mem_cons_self _ _
    have := natDecChars_digits i.natAbs '-' this
    simp at this
  · have := natDecChars_injective h
    omega

/-- Splitting at the first occurrence of a marker character is unambiguous. -/
theorem append_marker_inj {m : Char} : ∀ (x₁ : List Char) {y₁ : List Char} (x₂ : List Char)
    {y₂ : List Char}, m ∉ x₁ → m ∉ x₂ → x₁ ++ m :: y₁ = x₂ ++ m :: y₂ → x₁ = x₂ ∧ y₁ = y₂ := by
  intro x₁
  induction x₁ with
  | nil =>
    intro y₁ x₂ y₂ _ hm2 heq
    cases x₂ with
    | nil => simpa using heq
    | cons b t =>
      simp only [List.nil_append, List.cons_append, List.cons.injEq] at heq
      exact absurd (heq.1 ▸ List.mem_cons_self b t) hm2
  | cons a s ih =>
    intro y₁ x₂ y₂ hm1 hm2 heq
    cases x₂ with
    | nil =>
      simp only [List.cons_append, List.nil_append, List.cons.injEq] at heq
      exact absurd (heq.1.symm ▸ List.mem_cons_self a s) hm1
    | cons b t =>
      simp only [List.cons_append, List.cons.injEq] at heq
      obtain ⟨rfl, heq⟩ := heq
      have := ih t (fun h => hm1 (List.mem_cons_of_mem _ h))
        (fun h => hm2 (List.mem_cons_of_mem _ h)) heq
      exact ⟨by rw [this.1], this.2⟩

namespace Coalesce

/-- The join of the sanitised (wrapped) arguments of a non-empty tuple ends in
the closing delimiter `'}'`. -/
theorem joinPipe_sanitise_ends : ∀ (args : List JSVal), args ≠ [] →
    ∃ b, joinPipe (sanitiseArgs args) = b ++ ['}'] := by
  intro args
  induction args with
  | nil => intro h; exact absurd rfl h
  | cons v rest ih =>
    intro _
    cases rest with
    | nil =>
      exact ⟨'{' :: prependType v, rfl⟩
    | cons w t =>
      obtain ⟨b, hb⟩ := ih (by simp)
      refine ⟨'{' :: prependType v ++ ['}'] ++ '|' :: b, ?_⟩
      show wrap (prependType v) ++ '|' :: joinPipe (sanitiseArgs (w :: t)) = _
      rw [hb, wrap]
      simp

/-- For a validated, brace-free argument the encoded content contains no
`'}'`. -/
theorem prependType_no_brace {v : JSVal} (hv : validateArg v = .ok ())
    (hb : braceFree v = true) : '}' ∉ prependType v := by
  cases v with
  | str s =>
    simp only [braceFree, List.contains, Bool.not_eq_true', List.elem_eq_mem,
      decide_eq_false_iff_not] at hb
    simp only [prependType, List.mem_cons]
    rintro (h | h)
    · exact absurd h.symm (by decide)
    · exact hb h
  | num q =>
    have hsafe : isSafeInteger q = true := by
      by_contra hns
      simp only [validateArg, typeofVal] at hv
      rw [if_neg (by simp)] at hv
      simp [hns] at hv
    simp only [prependType, jsNumChars, if_pos, List.mem_cons]
    rintro (h | h)
    · exact absurd h.symm (by decide)
    · rcases intDecChars_chars q.num '}' (by simpa using h) with h' | h' <;> simp at h'
  | nan =>
    exact absurd hv (by decide)
  | boolean b =>
    cases b <;> decide
  | other t =>
    simp only [validateArg, typeofVal] at hv
    rw [if_pos (by cases t <;> decide)] at hv
    exact absurd hv (by simp)

/-- The tagged encodings of two validated values agree only on equal values. -/
theorem prependType_inj {v w : JSVal} (hv : validateArg v = .ok ())
    (hw : validateArg w = .ok ()) (h : prependType v = prependType w) : v = w := by
  have denv : ∀ q : ℚ, validateArg (.num q) = .ok () → q.den = 1 := by
    intro q hq
    by_contra hd
    have : isSafeInteger q = false := by
      simp [isSafeInteger, hd]
    simp only [validateArg, typeofVal] at hq
    rw [if_neg (by simp)] at hq
    simp [this] at hq
  cases v with
  | str s =>
    cases w with
    | str s' =>
      simp only [prependType, List.cons.injEq] at h
      exact congrArg JSVal.str (by
        have := h.2
        exact String.ext this)
    | num q => simp [prependType] at h
    | nan => exact absurd hw (by decide)
    | boolean b => simp [prependType] at h
    | other t =>
      simp only [validateArg, typeofVal] at hw
      rw [if_pos (by cases t <;> decide)] at hw
      exact absurd hw (by simp)
  | num q =>
    cases w with
    | str s => simp [prependType] at h
    | num q' =>
      simp only [prependType, jsNumChars, List.cons.injEq] at h
      have hn : q.num = q'.num := intDecChars_injective (by simpa using h.2)
      have h1 := denv q hv
      have h2 := denv q' hw
      exact congrArg JSVal.num (Rat.ext hn (h1.trans h2.symm))
    | nan => exact absurd hw (by decide)
    | boolean b => simp [prependType] at h
    | other t =>
      simp only [validateArg, typeofVal] at hw
      rw [if_pos (by cases t <;> decide)] at hw
      exact absurd hw (by simp)
  | nan => exact absurd hv (by decide)
  | boolean b =>
    cases w with
    | str s => simp [prependType] at h
    | num q => simp [prependType] at h
    | nan => exact absurd hw (by decide)
    | boolean b' =>
      cases b <;> cases b' <;> first | rfl | (exact absurd h (by decide))
    | other t =>
      simp only [validateArg, typeofVal] at hw
      rw [if_pos (by cases t <;> decide)] at hw
      exact absurd hw (by simp)
  | other t =>
    simp only [validateArg, typeofVal] at hv
    rw [if_pos (by cases t <;> decide)] at hv
    exact absurd hv (by simp)

theorem validateArgs_ok_iff (l : List JSVal) :
    validateArgs l = .ok () ↔ ∀ v ∈ l, validateArg v = .ok () := by
  induction l with
  | nil =>
    constructor
    · intro _ v hv
      simp at hv
    · intro _
      rfl
  | cons v rest ih =>
    simp only [validateArgs] at *
    rw [List.forM_cons']
    cases hv : validateArg v with
    | error e =>
      rw [except_error_bind]
      constructor
      · intro h
        exact absurd h (by simp)
      · intro h
        rw [h v (List.mem_cons_self v rest)] at hv
        exact absurd hv (by simp)
    | ok u =>
      cases u
      rw [except_ok_bind]
      constructor
      · intro h w hw
        rcases List.mem_cons.mp hw with rfl | hw'
        · exact hv
        · exact ih.mp h w hw'
      · intro h
        exact ih.mpr fun w hw => h w (List.mem_cons_of_mem v hw)

/-- No key can end both ways: equal automatic keys force equal argument counts
and equal joined bodies. -/
theorem key_parts_eq {args1 args2 : List JSVal} (h1 : args1 ≠ []) (h2 : args2 ≠ [])
    (heq : joinPipe (sanitiseArgs args1) ++ '|' :: natDecChars args1.length =
           joinPipe (sanitiseArgs args2) ++ '|' :: natDecChars args2.length) :
    args1.length = args2.length ∧
      joinPipe (sanitiseArgs args1) = joinPipe (sanitiseArgs args2) := by
  obtain ⟨b1, hb1⟩ := joinPipe_sanitise_ends args1 h1
  obtain ⟨b2, hb2⟩ := joinPipe_sanitise_ends args2 h2
  rw [hb1, hb2] at heq
  have e1 : ((b1 ++ ['}']) ++ '|' :: natDecChars args1.length).reverse =
      ((natDecChars args1.length).reverse ++ ['|']) ++ '}' :: b1.reverse := by
    simp
  have e2 : ((b2 ++ ['}']) ++ '|' :: natDecChars args2.length).reverse =
      ((natDecChars args2.length).reverse ++ ['|']) ++ '}' :: b2.reverse := by
    simp
  have hrev : ((natDecChars args1.length).reverse ++ ['|']) ++ '}' :: b1.reverse =
      ((natDecChars args2.length).reverse ++ ['|']) ++ '}' :: b2.reverse := by
    rw [← e1, ← e2, heq]
  have hnomark : ∀ n : Nat, '}' ∉ (natDecChars n).reverse ++ ['|'] := by
    intro n hmem
    rcases List.mem_append.mp hmem with h | h
    · have := natDecChars_digits n '}' (List.mem_reverse.mp h)
      exact absurd this (by decide)
    · simp at h
  obtain ⟨hx, hy⟩ := append_marker_inj _ _ (hnomark args1.length) (hnomark args2.length) hrev
  have hdec : natDecChars args1.length = natDecChars args2.length :=
    List.reverse_injective (List.append_cancel_right hx)
  refine ⟨natDecChars_injective hdec, ?_⟩
  rw [hb1, hb2, List.reverse_injective hy]

/-- Same-length validated tuples whose strings avoid `'}'` have injective
joined bodies. -/
theorem joinPipe_sanitise_inj : ∀ (args1 args2 : List JSVal),
    args1.length = args2.length →
    (∀ v ∈ args1, validateArg v = .ok ()) → (∀ v ∈ args2, validateArg v = .ok ()) →
    (∀ v ∈ args1, braceFree v = true) → (∀ v ∈ args2, braceFree v = true) →
    joinPipe (sanitiseArgs args1) = joinPipe (sanitiseArgs args2) → args1 = args2 := by
  intro args1
  induction args1 with
  | nil =>
    intro args2 hlen _ _ _ _ _
    cases args2 with
    | nil => rfl
    | cons w t => simp at hlen
  | cons v r ih =>
    intro args2 hlen hv1 hv2 hb1 hb2 hj
    cases args2 with
    | nil => simp at hlen
    | cons w t =>
      have hvv := hv1 v (List.mem_cons_self v r)
      have hvw := hv2 w (List.mem_cons_self w t)
      have hnv : '}' ∉ prependType v :=
        prependType_no_brace hvv (hb1 v (List.mem_cons_self v r))
      have hnw : '}' ∉ prependType w :=
        prependType_no_brace hvw (hb2 w (List.mem_cons_self w t))
      cases r with
      | nil =>
        cases t with
        | cons w2 t2 => simp at hlen
        | nil =>
          have hj' : prependType v ++ '}' :: ([] : List Char) =
              prependType w ++ '}' :: ([] : List Char) := by
            have : wrap (prependType v) = wrap (prependType w) := hj
            simpa [wrap] using this
          obtain ⟨hc, -⟩ := append_marker_inj _ _ hnv hnw hj'
          rw [prependType_inj hvv hvw hc]
      | cons v2 r2 =>
        cases t with
        | nil => simp at hlen
        | cons w2 t2 =>
          have hj' : prependType v ++ '}' :: '|' :: joinPipe (sanitiseArgs (v2 :: r2)) =
              prependType w ++ '}' :: '|' :: joinPipe (sanitiseArgs (w2 :: t2)) := by
            have : wrap (prependType v) ++ '|' :: joinPipe (sanitiseArgs (v2 :: r2)) =
                wrap (prependType w) ++ '|' :: joinPipe (sanitiseArgs (w2 :: t2)) := hj
            simpa [wrap] using this
          obtain ⟨hc, htail⟩ := append_marker_inj _ _ hnv hnw hj'
          have hrest : joinPipe (sanitiseArgs (v2 :: r2)) = joinPipe (sanitiseArgs (w2 :: t2)) := by
            injection htail
          rw [prependType_inj hvv hvw hc,
            ih (w2 :: t2) (by simpa using hlen)
              (fun u hu => hv1 u (List.mem_cons_of_mem v hu))
              (fun u hu => hv2 u (List.mem_cons_of_mem w hu))
              (fun u hu => hb1 u (List.mem_cons_of_mem v hu))
              (fun u hu => hb2 u (List.mem_cons_of_mem w hu)) hrest]

/-- On a non-empty validated tuple, automatic key generation returns the
joined wrapped encodings with the argument count appended. -/
theorem createKey_auto {args : List JSVal} (h : args ≠ [])
    (hv : ∀ v ∈ args, validateArg v = .ok ()) :
    createKey args none =
      .ok (joinPipe (sanitiseArgs args) ++ '|' :: natDecChars args.length) := by
  simp only [createKey]
  rw [if_pos (by simpa using List.length_pos.mpr h), (validateArgs_ok_iff args).mpr hv]
  simp [sanitiseArgs]

end Coalesce

/-- C3 counterexample: the automatic key generation is not injective on
distinct non-empty tuples of strings — the two distinct pairs
`("a}|{sb", "c")` and `("a", "b}|{sc")` derive the same key
`{sa}|{sb}|{sc}|2`. -/
theorem C3_createKey_not_injective :
    Coalesce.createKey [JSVal.str "a\x7d|\x7bsb", JSVal.str "c"] none =
      Coalesce.createKey [JSVal.str "a", JSVal.str "b\x7d|\x7bsc"] none ∧
    [JSVal.str "a\x7d|\x7bsb", JSVal.str "c"] ≠ [JSVal.str "a", JSVal.str "b\x7d|\x7bsc"] := by
  decide

/-- C3 (amended): the automatic key-generation function is injective over
distinct non-empty validated argument tuples (strings, booleans, safe-integer
numbers) as long as the tuples have different argument counts, or have equal
counts and none of their string elements contains the delimiter character
`'}'` — this covers the listed pairs `("||","|")` vs `("|","||")`,
`("one","two")` vs `("one}|{stwo")`, and `true` vs `"true"`.  (Full
injectivity fails; see the counterexample.) -/
theorem C3_createKey_injective_amended (args1 args2 : List JSVal)
    (h1 : args1 ≠ []) (h2 : args2 ≠ [])
    (hv1 : ∀ v ∈ args1, Coalesce.validateArg v = .ok ())
    (hv2 : ∀ v ∈ args2, Coalesce.validateArg v = .ok ())
    (hne : args1 ≠ args2)
    (hcase : args1.length ≠ args2.length ∨
      ((∀ v ∈ args1, Coalesce.braceFree v = true) ∧
       (∀ v ∈ args2, Coalesce.braceFree v = true))) :
    Coalesce.createKey args1 none ≠ Coalesce.createKey args2 none := by
  intro heq
  rw [Coalesce.createKey_auto h1 hv1, Coalesce.createKey_auto h2 hv2] at heq
  have hkeys := Except.ok.inj heq
  obtain ⟨hlen, hjoin⟩ := Coalesce.key_parts_eq h1 h2 hkeys
  rcases hcase with hbad | ⟨hb1, hb2⟩
  · exact hbad hlen
  · exact hne (Coalesce.joinPipe_sanitise_inj args1 args2 hlen hv1 hv2 hb1 hb2 hjoin)

/-- Witness for C3 (amended) at the spec's own example pair `("||","|")` vs
`("|","||")`: equal length, no braces, distinct — so distinct keys. -/
theorem C3_witness :
    Coalesce.createKey [JSVal.str "||", JSVal.str "|"] none ≠
      Coalesce.createKey [JSVal.str "|", JSVal.str "||"] none :=
  C3_createKey_injective_amended _ _ (by decide) (by decide) (by decide) (by decide)
    (by decide) (Or.inr ⟨by decide, by decide⟩)

/-- C8: without a `generateKey` callback, a call with a non-(string, number,
boolean) argument fails with the `CoalesceKeyError` naming that argument's
`typeof`; a call with a numeric argument that is not a safe integer fails with
the safe-integer `CoalesceKeyError`; the first failing argument's error is the
call's error; and on such a failure the wrapped function is not invoked and
the in-flight map is untouched (the caller alone is rejected). -/
theorem C8_key_validation_errors (t : JSType) (q : ℚ) (pre post args : List JSVal)
    (v : JSVal) (e : CoalesceKeyError) (gk : Option (List JSVal → List Char))
    (s : Coalesce.CConfig) (cid : Nat) :
    (Coalesce.validateArg (.other t) = .error
      ⟨"Invalid parameter type: " ++ t.name ++
        ".\nCreate a generateKey callback to use complex data types."⟩) ∧
    (isSafeInteger q = false → Coalesce.validateArg (.num q) = .error
      ⟨"Unable to generate key: Provided integer exceeds maximum safe integer size"⟩) ∧
    ((∀ u ∈ pre, Coalesce.validateArg u = .ok ()) → Coalesce.validateArg v = .error e →
      Coalesce.createKey (pre ++ v :: post) none = .error e) ∧
    (Coalesce.createKey args gk = .error e →
      Coalesce.cstep gk s (.call cid args) =
        { s with keyFailures := s.keyFailures ++ [(cid, e)] }) := by
  refine ⟨?_, ?_, ?_, ?_⟩
  · simp only [Coalesce.validateArg, typeofVal]
    rw [if_pos (by cases t <;> decide)]
  · intro hq
    simp only [Coalesce.validateArg, typeofVal]
    rw [if_neg (by simp)]
    simp [hq]
  · intro hpre hverr
    simp only [Coalesce.createKey]
    rw [if_pos (by simp only [List.length_append, List.length_cons]; omega)]
    have hva : Coalesce.validateArgs (pre ++ v :: post) = .error e := by
      simp only [Coalesce.validateArgs]
      rw [List.forM_append]
      have hpre' : pre.forM Coalesce.validateArg = .ok () :=
        (Coalesce.validateArgs_ok_iff pre).mpr hpre
      rw [hpre', except_ok_bind, List.forM_cons', hverr, except_error_bind]
    rw [hva]
  · intro hkey
    simp [Coalesce.cstep, hkey]

/-- Witness for C8: an object argument, an unsafe integer, and the resulting
no-op on decorator state (`fn` not invoked, map untouched). -/
theorem C8_witness :
    Coalesce.createKey [JSVal.str "x", JSVal.other .object] none = .error
      ⟨"Invalid parameter type: object.\nCreate a generateKey callback to use complex data types."⟩ ∧
    Coalesce.validateArg (.num (9007199254740992 : ℚ)) = .error
      ⟨"Unable to generate key: Provided integer exceeds maximum safe integer size"⟩ ∧
    Coalesce.cstep none Coalesce.cinit (.call 0 [JSVal.other .object]) =
      { Coalesce.cinit with keyFailures := [(0,
        ⟨"Invalid parameter type: object.\nCreate a generateKey callback to use complex data types."⟩)] } := by
  refine ⟨?_, ?_, ?_⟩
  · exact (C8_key_validation_errors .object 0 [JSVal.str "x"] [] [] (.other .object)
      ⟨"Invalid parameter type: object.\nCreate a generateKey callback to use complex data types."⟩
      none Coalesce.cinit 0).2.2.1 (by decide) (by decide)
  · exact (C8_key_validation_errors .object (9007199254740992 : ℚ) [] [] [] (.other .object)
      ⟨"Unable to generate key: Provided integer exceeds maximum safe integer size"⟩
      none Coalesce.cinit 0).2.1 (by decide)
  · exact (C8_key_validation_errors .object 0 [] [] [JSVal.other .object] (.other .object)
      ⟨"Invalid parameter type: object.\nCreate a generateKey callback to use complex data types."⟩
      none Coalesce.cinit 0).2.2.2 (by decide)

/-- C9 counterexample: `limit(fn, NaN)` constructs successfully in the source
— `typeof NaN` is `"number"` and `NaN < 1` is false, so no check throws —
although `NaN` is not a number that is at least 1.  This falsifies the
claim's "succeeds only if … capacity is a number that is at least 1". -/
theorem C9_nan_accepted :
    Limit.validateArgs (.other .function) .nan = .ok () ∧
    ¬ ∃ q : ℚ, (JSVal.nan = JSVal.num q ∧ 1 ≤ q) := by
  constructor
  · decide
  · rintro ⟨q, hq, -⟩
    cases hq

/-- C9 (amended): limiter construction succeeds exactly when `fn` is callable
and the capacity is a number on which `capacity < 1` is false — a number at
least 1, or `NaN`, which compares false against everything and so slips
through the `limit < 1` check; otherwise it fails synchronously with the
matching `TypeError` message, in source order. -/
theorem C9_limit_validateArgs (fn lim : JSVal) :
    (Limit.validateArgs fn lim = .ok () ↔
      typeofVal fn = "function" ∧
        ((∃ q : ℚ, lim = .num q ∧ 1 ≤ q) ∨ lim = .nan)) ∧
    (typeofVal fn ≠ "function" →
      Limit.validateArgs fn lim = .error ⟨"parameter must be a function"⟩) ∧
    (typeofVal fn = "function" → typeofVal lim ≠ "number" →
      Limit.validateArgs fn lim = .error ⟨"limit must be a number"⟩) ∧
    (∀ q : ℚ, typeofVal fn = "function" → lim = .num q → q < 1 →
      Limit.validateArgs fn lim = .error ⟨"limit must be >= 1"⟩) := by
  refine ⟨?_, ?_, ?_, ?_⟩
  · constructor
    · intro h
      by_cases hf : typeofVal fn = "function"
      · simp only [Limit.validateArgs] at h
        rw [if_neg (by simp [hf])] at h
        by_cases hn : typeofVal lim = "number"
        · cases lim with
          | num q =>
            rw [if_neg (by simp [hn])] at h
            refine ⟨hf, Or.inl ⟨q, rfl, ?_⟩⟩
            by_cases hq : Limit.jsLt (.num q) 1 = true
            · rw [if_pos hq] at h
              exact absurd h (by simp)
            · have : ¬ q < 1 := by simpa [Limit.jsLt] using hq
              linarith
          | nan => exact ⟨hf, Or.inr rfl⟩
          | str sv => exact absurd hn (show ("string" : String) ≠ "number" by decide)
          | boolean b => exact absurd hn (show ("boolean" : String) ≠ "number" by decide)
          | other t => cases t <;> exact absurd hn (by decide)
        · rw [if_pos (by simp [hn])] at h
          exact absurd h (by simp)
      · simp only [Limit.validateArgs] at h
        rw [if_pos (by simp [hf])] at h
        exact absurd h (by simp)
    · rintro ⟨hf, ⟨q, rfl, hq⟩ | rfl⟩
      · simp only [Limit.validateArgs]
        rw [if_neg (by simp [hf]), if_neg (by simp [typeofVal]),
          if_neg (by simp [Limit.jsLt]; linarith)]
      · simp only [Limit.validateArgs]
        rw [if_neg (by simp [hf]), if_neg (by simp [typeofVal]),
          if_neg (by simp [Limit.jsLt])]
  · intro hf
    simp only [Limit.validateArgs]
    rw [if_pos hf]
  · intro hf hn
    simp only [Limit.validateArgs]
    rw [if_neg (by simp [hf]), if_pos hn]
  · intro q hf hlim hq
    subst hlim
    simp only [Limit.validateArgs]
    rw [if_neg (by simp [hf]), if_neg (by simp [typeofVal]),
      if_pos (by simp [Limit.jsLt, hq])]

namespace Coalesce

/-- In every reachable coalescer state the in-flight key list has no
duplicates: at most one entry per key. -/
theorem crun_inFlight_nodup (gk : Option (List JSVal → List Char)) (es : List CEvent) :
    (crun gk es).inFlight.Nodup := by
  refine foldl_invariant (fun s => s.inFlight.Nodup) (cstep gk) ?_ es cinit (by simp [cinit])
  intro s e hnd
  cases e with
  | call cid args =>
    simp only [cstep]
    split
    · exact hnd
    · next k hk =>
      by_cases hmem : k ∈ s.inFlight
      · simpa [hmem] using hnd
      · simp only [if_neg hmem]
        simp [List.nodup_append, hnd, hmem]
  | settle k o =>
    simp only [cstep]
    by_cases hmem : k ∈ s.inFlight
    · simpa [hmem] using hnd.erase k
    · simpa [hmem] using hnd

/-- While a key is in flight, further calls deriving that key only append
waiters: the wrapped function is not invoked again and the map is
unchanged. -/
theorem cstep_calls_while_inflight (gk : Option (List JSVal → List Char)) (k : List Char) :
    ∀ (calls : List (Nat × List JSVal)) (s : CConfig), k ∈ s.inFlight →
      (∀ p ∈ calls, createKey p.2 gk = .ok k) →
      (calls.map (fun p => CEvent.call p.1 p.2)).foldl (cstep gk) s =
        { s with waiters := s.waiters ++ calls.map (fun p => (p.1, k)) } := by
  intro calls
  induction calls with
  | nil =>
    intro s hk _
    simp
  | cons p rest ih =>
    intro s hk hkeys
    have hp : createKey p.2 gk = .ok k := hkeys p (List.mem_cons_self p rest)
    simp only [List.map_cons, List.foldl_cons]
    have hstep : cstep gk s (.call p.1 p.2) = { s with waiters := s.waiters ++ [(p.1, k)] } := by
      simp [cstep, hp, hk]
    rw [hstep, ih _ (by simpa using hk) (fun q hq => hkeys q (List.mem_cons_of_mem p hq))]
    simp

end Coalesce

/-- C1: if several concurrent calls derive the same key `k` while no
invocation for `k` is in flight and none settles in between, the wrapped
function is invoked exactly once (by the first call, with its arguments), and
when that single invocation settles every one of the callers observes its
outcome — the same value on success, the same error on failure. -/
theorem C1_coalesce_single_invocation (gk : Option (List JSVal → List Char))
    (es : List Coalesce.CEvent) (k : List Char) (calls : List (Nat × List JSVal))
    (o : Coalesce.COutcome) (s s' : Coalesce.CConfig)
    (hs : s = Coalesce.crun gk es)
    (hkeys : ∀ p ∈ calls, Coalesce.createKey p.2 gk = .ok k)
    (hnin : k ∉ s.inFlight) (hne : calls ≠ [])
    (hs' : s' = (calls.map (fun p => Coalesce.CEvent.call p.1 p.2)).foldl (Coalesce.cstep gk) s) :
    s'.fnCalls = s.fnCalls ++ [(calls.head hne).2] ∧
    (∀ p ∈ calls, (p.1, o) ∈ (Coalesce.cstep gk s' (.settle k o)).delivered) := by
  subst hs hs'
  cases calls with
  | nil => exact absurd rfl hne
  | cons p0 rest =>
    set s : Coalesce.CConfig := Coalesce.crun gk es with hsdef
    have hp0 : Coalesce.createKey p0.2 gk = .ok k := hkeys p0 (List.mem_cons_self p0 rest)
    have hstep0 : Coalesce.cstep gk s (.call p0.1 p0.2) =
        { s with inFlight := s.inFlight ++ [k],
                 waiters := s.waiters ++ [(p0.1, k)],
                 fnCalls := s.fnCalls ++ [p0.2] } := by
      simp [Coalesce.cstep, hp0, hnin]
    simp only [List.map_cons, List.foldl_cons, hstep0]
    rw [Coalesce.cstep_calls_while_inflight gk k rest _ (by simp)
      (fun q hq => hkeys q (List.mem_cons_of_mem p0 hq))]
    refine ⟨rfl, ?_⟩
    intro p hp
    have hkin : k ∈ s.inFlight ++ [k] := by simp
    simp only [Coalesce.cstep, if_pos hkin]
    have hwait : (p.1, k) ∈ (s.waiters ++ [(p0.1, k)]) ++ rest.map (fun q => (q.1, k)) := by
      rcases List.mem_cons.mp hp with rfl | hrest
      · simp
      · refine List.mem_append.mpr (Or.inr ?_)
        exact List.mem_map.mpr ⟨p, hrest, rfl⟩
    refine List.mem_append.mpr (Or.inr ?_)
    refine List.mem_map.mpr ⟨(p.1, k), ?_, rfl⟩
    rw [List.mem_filter]
    exact ⟨hwait, by simp⟩

/-- Witness for C1: two concurrent calls with argument `"a"` on an idle
coalescer invoke the wrapped function once, and both callers receive the
settled value. -/
theorem C1_witness :
    (([((0 : Nat), [JSVal.str "a"]), (1, [JSVal.str "a"])].map
        (fun p => Coalesce.CEvent.call p.1 p.2)).foldl (Coalesce.cstep none)
        (Coalesce.crun none [])).fnCalls = [[JSVal.str "a"]] ∧
    ((0 : Nat), Coalesce.COutcome.success 7) ∈
      (Coalesce.cstep none
        (([((0 : Nat), [JSVal.str "a"]), (1, [JSVal.str "a"])].map
          (fun p => Coalesce.CEvent.call p.1 p.2)).foldl (Coalesce.cstep none)
          (Coalesce.crun none []))
        (.settle "{sa}|1".data (.success 7))).delivered ∧
    ((1 : Nat), Coalesce.COutcome.success 7) ∈
      (Coalesce.cstep none
        (([((0 : Nat), [JSVal.str "a"]), (1, [JSVal.str "a"])].map
          (fun p => Coalesce.CEvent.call p.1 p.2)).foldl (Coalesce.cstep none)
          (Coalesce.crun none []))
        (.settle "{sa}|1".data (.success 7))).delivered := by
  have h := C1_coalesce_single_invocation none [] "{sa}|1".data
    [((0 : Nat), [JSVal.str "a"]), (1, [JSVal.str "a"])] (.success 7) _ _ rfl
    (by decide) (by decide) (by decide) rfl
  exact ⟨h.1, h.2 (0, [JSVal.str "a"]) (by decide), h.2 (1, [JSVal.str "a"]) (by decide)⟩

/-- C7: when the single invocation behind key `k` settles — with a value or
with an error alike — the key is removed from the in-flight map in the same
step, every caller that shared the entry is delivered that same outcome, and
a later call deriving `k` starts a fresh invocation of the wrapped function
(no outcome is cached: the key is re-inserted and `fn` re-invoked). -/
theorem C7_settlement_cleanup (gk : Option (List JSVal → List Char))
    (es : List Coalesce.CEvent) (k : List Char) (o : Coalesce.COutcome)
    (cid : Nat) (args : List JSVal) (s s' : Coalesce.CConfig)
    (hs : s = Coalesce.crun gk es) (hk : k ∈ s.inFlight)
    (hs' : s' = Coalesce.cstep gk s (.settle k o)) :
    k ∉ s'.inFlight ∧
    (∀ c, (c, k) ∈ s.waiters → (c, o) ∈ s'.delivered) ∧
    (Coalesce.createKey args gk = .ok k →
      (Coalesce.cstep gk s' (.call cid args)).fnCalls = s'.fnCalls ++ [args] ∧
      (Coalesce.cstep gk s' (.call cid args)).inFlight = s'.inFlight ++ [k]) := by
  have hnd : s.inFlight.Nodup := hs ▸ Coalesce.crun_inFlight_nodup gk es
  have hstep : Coalesce.cstep gk s (.settle k o) =
      { s with inFlight := s.inFlight.erase k,
               waiters := s.waiters.filter (fun w => w.2 ≠ k),
               delivered := s.delivered ++
                 (s.waiters.filter (fun w => w.2 = k)).map (fun w => (w.1, o)) } := by
    simp [Coalesce.cstep, hk]
  subst hs'
  rw [hstep]
  have hnin : k ∉ s.inFlight.erase k := hnd.not_mem_erase
  refine ⟨hnin, ?_, ?_⟩
  · intro c hc
    refine List.mem_append.mpr (Or.inr ?_)
    refine List.mem_map.mpr ⟨(c, k), ?_, rfl⟩
    rw [List.mem_filter]
    exact ⟨hc, by simp⟩
  · intro hkey
    constructor <;> simp [Coalesce.cstep, hkey, hnin]

/-- Witness for C7: key `{sa}|1` settles with an error; the key is gone, the
sharing caller receives the error, and a repeat call re-invokes `fn`. -/
theorem C7_witness :
    "{sa}|1".data ∉ (Coalesce.cstep none (Coalesce.crun none [.call 0 [JSVal.str "a"]])
      (.settle "{sa}|1".data (.failure 3))).inFlight ∧
    ((0 : Nat), Coalesce.COutcome.failure 3) ∈
      (Coalesce.cstep none (Coalesce.crun none [.call 0 [JSVal.str "a"]])
        (.settle "{sa}|1".data (.failure 3))).delivered ∧
    (Coalesce.cstep none
      (Coalesce.cstep none (Coalesce.crun none [.call 0 [JSVal.str "a"]])
        (.settle "{sa}|1".data (.failure 3)))
      (.call 1 [JSVal.str "a"])).fnCalls =
      (Coalesce.cstep none (Coalesce.crun none [.call 0 [JSVal.str "a"]])
        (.settle "{sa}|1".data (.failure 3))).fnCalls ++ [[JSVal.str "a"]] := by
  have h := C7_settlement_cleanup none [.call 0 [JSVal.str "a"]] "{sa}|1".data
    (.failure 3) 1 [JSVal.str "a"] _ _ rfl (by decide) rfl
  exact ⟨h.1, h.2.1 0 (by decide), (h.2.2 (by decide)).1⟩

namespace Limit

/-- `processing` always counts exactly the in-flight invocations, never
exceeding the capacity, and the queue ghost trace records strict FIFO
order: the ids ever enqueued are the ids dequeued so far followed by the
current queue. -/
theorem lrun_invariant (lim : Nat) (es : List LEvent) :
    (lrun lim es).processing = (lrun lim es).running.length ∧
    (lrun lim es).processing ≤ lim ∧
    (lrun lim es).enqueued = (lrun lim es).admitted ++ (lrun lim es).queue := by
  refine foldl_invariant
    (fun s => s.processing = s.running.length ∧ s.processing ≤ lim ∧
      s.enqueued = s.admitted ++ s.queue)
    (lstep lim) ?_ es linit ⟨rfl, Nat.zero_le lim, rfl⟩
  rintro s e ⟨hcount, hbound, hfifo⟩
  cases e with
  | arrive c =>
    by_cases h : s.processing < lim
    · simp only [lstep, if_pos h]
      refine ⟨?_, ?_, ?_⟩ <;> dsimp only
      · simp [hcount]
      · omega
      · exact hfifo
    · simp only [lstep, if_neg h]
      refine ⟨?_, ?_, ?_⟩ <;> dsimp only
      · exact hcount
      · exact hbound
      · simp [hfifo]
  | settleOk c =>
    simp only [lstep]
    split
    · exact ⟨hcount, hbound, hfifo⟩
    · next r hfind =>
      have hmem := List.mem_of_find?_eq_some hfind
      have hp := List.find?_some hfind
      have hlen : (s.running.eraseP (fun r => r.1 == c)).length = s.running.length - 1 :=
        List.length_eraseP_of_mem hmem hp
      have hpos : 1 ≤ s.running.length :=
        List.length_pos.mpr (by intro h0; rw [h0] at hmem; simp at hmem)
      split
      · next hq =>
        refine ⟨?_, ?_, ?_⟩ <;> dsimp only
        · simp [hlen, hcount]
        · omega
        · simpa [hq] using hfifo
      · next d rest hq =>
        refine ⟨?_, ?_, ?_⟩ <;> dsimp only
        · simp [hlen, hcount]
        · omega
        · rw [hfifo, hq]
          simp
  | settleFail c =>
    simp only [lstep]
    split
    · exact ⟨hcount, hbound, hfifo⟩
    · next r hfind =>
      have hmem := List.mem_of_find?_eq_some hfind
      have hp := List.find?_some hfind
      have hlen : (s.running.eraseP (fun x => x.1 == c)).length = s.running.length - 1 :=
        List.length_eraseP_of_mem hmem hp
      have hpos : 1 ≤ s.running.length :=
        List.length_pos.mpr (by intro h0; rw [h0] at hmem; simp at hmem)
      refine ⟨?_, ?_, ?_⟩ <;> dsimp only
      · simp [hlen, hcount]
      · omega
      · exact hfifo

end Limit

/-- C2: for a limiter of capacity `lim`, in every reachable state the
`processing` counter equals the number of in-flight invocations of the
wrapped function, satisfies `0 ≤ processing ≤ lim`, and a call arriving when
the counter is at capacity is appended to the queue rather than started. -/
theorem C2_admission_bound (lim : Nat) (es : List Limit.LEvent) (c : Nat) :
    (Limit.lrun lim es).processing = (Limit.lrun lim es).running.length ∧
    (Limit.lrun lim es).processing ≤ lim ∧
    ((Limit.lrun lim es).processing = lim →
      Limit.lstep lim (Limit.lrun lim es) (.arrive c) =
        { Limit.lrun lim es with
            queue := (Limit.lrun lim es).queue ++ [c],
            enqueued := (Limit.lrun lim es).enqueued ++ [c] }) := by
  obtain ⟨h1, h2, -⟩ := Limit.lrun_invariant lim es
  refine ⟨h1, h2, fun hfull => ?_⟩
  simp only [Limit.lstep, hfull, lt_irrefl, if_false]

/-- Witness for C2 at capacity 2 after two admissions: the counter sits at
the capacity and a third arrival is queued, not started. -/
theorem C2_witness :
    Limit.lstep 2 (Limit.lrun 2 [.arrive 0, .arrive 1]) (.arrive 2) =
      { Limit.lrun 2 [.arrive 0, .arrive 1] with
          queue := (Limit.lrun 2 [.arrive 0, .arrive 1]).queue ++ [2],
          enqueued := (Limit.lrun 2 [.arrive 0, .arrive 1]).enqueued ++ [2] } :=
  (C2_admission_bound 2 [.arrive 0, .arrive 1] 2).2.2 (by decide)

/-- C6: admission from the limiter's queue is strict FIFO — in every
reachable state the enqueue order equals the dequeue order followed by the
still-queued calls — and with capacity 1 and calls A, B, C issued in order,
the wrapped function is invoked in order A, B, C. -/
theorem C6_fifo (lim : Nat) (es : List Limit.LEvent) :
    (Limit.lrun lim es).enqueued =
      (Limit.lrun lim es).admitted ++ (Limit.lrun lim es).queue ∧
    (Limit.lrun 1 [.arrive 0, .arrive 1, .arrive 2,
      .settleOk 0, .settleOk 1, .settleOk 2]).started = [0, 1, 2] :=
  ⟨(Limit.lrun_invariant lim es).2.2, by decide⟩

/-- C10: an arriving call is queued exactly when the counter is at capacity,
and is started immediately whenever the counter is below capacity — even with
a non-empty queue, as the concrete run shows: after a failing invocation
leaves call 1 queued, the newly arriving call 2 starts ahead of it. -/
theorem C10_immediate_admission (lim : Nat) (es : List Limit.LEvent) (c : Nat) :
    ((Limit.lstep lim (Limit.lrun lim es) (.arrive c)).started =
        (Limit.lrun lim es).started ++ [c] ↔ (Limit.lrun lim es).processing < lim) ∧
    ((Limit.lstep lim (Limit.lrun lim es) (.arrive c)).queue =
        (Limit.lrun lim es).queue ++ [c] ↔ (Limit.lrun lim es).processing = lim) ∧
    (Limit.lrun 1 [.arrive 0, .arrive 1, .settleFail 0, .arrive 2]).queue = [1] ∧
    (Limit.lrun 1 [.arrive 0, .arrive 1, .settleFail 0, .arrive 2]).started = [0, 2] := by
  obtain ⟨-, hbound, -⟩ := Limit.lrun_invariant lim es
  refine ⟨?_, ?_, by decide, by decide⟩
  · by_cases h : (Limit.lrun lim es).processing < lim
    · simp [Limit.lstep, if_pos h, h]
    · simp only [Limit.lstep, if_neg h]
      simp [h]
  · by_cases h : (Limit.lrun lim es).processing < lim
    · simp only [Limit.lstep, if_pos h]
      simp [Nat.ne_of_lt h]
    · have heq : (Limit.lrun lim es).processing = lim := by omega
      simp only [Limit.lstep, if_neg h]
      simp [heq]

/-- Witness for C10: with capacity 1 and an idle limiter, an arriving call is
started immediately. -/
theorem C10_witness :
    (Limit.lstep 1 (Limit.lrun 1 []) (.arrive 0)).started =
      (Limit.lrun 1 []).started ++ [0] :=
  (C10_immediate_admission 1 [] 0).1.mpr (by decide)

/-- C4: evaluation of `limit.js` at the failing input (capacity 1; call 0
admitted; call 1 queued; invocation 0 fails).  The failure decrements the
counter, but — because the `await` re-raises before the queue check in
`run` — the head of the queue is NOT dequeued and NOT started, contradicting
the claim; the success path (last conjunct) does dequeue and start it. -/
theorem C4_no_dequeue_on_failure :
    (Limit.lrun 1 [.arrive 0, .arrive 1, .settleFail 0]).processing = 0 ∧
    (Limit.lrun 1 [.arrive 0, .arrive 1, .settleFail 0]).queue = [1] ∧
    (Limit.lrun 1 [.arrive 0, .arrive 1, .settleFail 0]).started = [0] ∧
    (Limit.lrun 1 [.arrive 0, .arrive 1, .settleOk 0]).queue = [] ∧
    (Limit.lrun 1 [.arrive 0, .arrive 1, .settleOk 0]).started = [0, 1] := by
  decide

/-- C5: evaluation of `limit.js` at the failing input (capacity 1; call 0
admitted; call 1 queued; call 0 succeeds; call 1's invocation fails).  The
queued caller 1 is never delivered any outcome although its invocation has
settled and the limiter is quiescent — `run(args).then(resolve)` installs no
rejection handler — contradicting the claim; a directly admitted caller
(last conjunct) does receive the failure. -/
theorem C5_queued_caller_loses_failure :
    (Limit.lrun 1 [.arrive 0, .arrive 1, .settleOk 0, .settleFail 1]).delivered = [(0, true)] ∧
    (Limit.lrun 1 [.arrive 0, .arrive 1, .settleOk 0, .settleFail 1]).running = [] ∧
    (Limit.lrun 1 [.arrive 0, .arrive 1, .settleOk 0, .settleFail 1]).queue = [] ∧
    (Limit.lrun 1 [.arrive 0, .settleFail 0]).delivered = [(0, false)] := by
  decide

/-- Witness for C9 (amended): a callable with capacity 3 is accepted, and so
is one with capacity `NaN`; each of the three rejection messages fires on its
own malformed input. -/
theorem C9_witness :
    Limit.validateArgs (.other .function) (.num 3) = .ok () ∧
    Limit.validateArgs (.other .function) .nan = .ok () ∧
    Limit.validateArgs (.str "str") (.num 1) = .error ⟨"parameter must be a function"⟩ ∧
    Limit.validateArgs (.other .function) (.str "str") = .error ⟨"limit must be a number"⟩ ∧
    Limit.validateArgs (.other .function) (.num (-1)) = .error ⟨"limit must be >= 1"⟩ := by
  refine ⟨?_, ?_, ?_, ?_, ?_⟩
  · exact (C9_limit_validateArgs (.other .function) (.num 3)).1.mpr
      ⟨by decide, Or.inl ⟨3, rfl, by norm_num⟩⟩
  · exact (C9_limit_validateArgs (.other .function) .nan).1.mpr ⟨by decide, Or.inr rfl⟩
  · exact (C9_limit_validateArgs (.str "str") (.num 1)).2.1 (by decide)
  · exact (C9_limit_validateArgs (.other .function) (.str "str")).2.2.1 (by decide) (by decide)
  · exact (C9_limit_validateArgs (.other .function) (.num (-1))).2.2.2 (-1) (by decide) rfl
      (by norm_num)

end Deco
